import Mathlib

/-!
Verification development for the text-wrapping and row-synchronization core of
a travel-expense PDF printing program (Rust).  The functions below are shallow
embeddings of `src/pdf/text_utils.rs`, `src/models.rs` (`format_price`) and the
page allocator loop of `src/pdf/generator.rs` (`add_ryohi_items`).

Modelling conventions:
* A Rust `String` is modelled as a `List Char` (`Str`); `chars().count()` is
  `List.length`, `s.len()` (UTF-8 byte length) is `utf8Len`.
* Rust operations that can panic (string byte-slicing off a character
  boundary, indexing an empty vector) are modelled in the `Option` monad;
  `none` is a panic.
* The float quantity field (`vol : Option<f64>`) is modelled generically: the
  record type takes a type parameter `V` and the formatter
  `format!("{:.1}", v)` is an arbitrary function `fmtV : V → Str`, so every
  theorem below holds for the actual IEEE formatter in particular.  No claim
  depends on the rendered digits of the quantity.
-/

set_option autoImplicit false

/-- A Rust string, viewed as its sequence of Unicode codepoints. -/
abbrev Str := List Char

/-- UTF-8 byte size of one codepoint (Rust `char::len_utf8`). -/
def utf8Size (c : Char) : Nat :=
  if c.toNat < 0x80 then 1
  else if c.toNat < 0x800 then 2
  else if c.toNat < 0x10000 then 3
  else 4

/-- UTF-8 byte length of a string (Rust `str::len`). -/
def utf8Len (s : Str) : Nat := (s.map utf8Size).sum

/-- Rust `char::is_whitespace` (the Unicode `White_Space` property). -/
def rustIsWhitespace (c : Char) : Bool :=
  let n := c.toNat
  (0x9 ≤ n && n ≤ 0xD) || n == 0x20 || n == 0x85 || n == 0xA0 || n == 0x1680 ||
  (0x2000 ≤ n && n ≤ 0x200A) || n == 0x2028 || n == 0x2029 || n == 0x202F ||
  n == 0x205F || n == 0x3000

/-- Rust `s.trim().is_empty()`: true iff every codepoint is whitespace. -/
def isBlank (s : Str) : Bool := s.all rustIsWhitespace

/-- `TextWrapResult` of `text_utils.rs`: wrapped lines plus their count. -/
structure TextWrapResult where
  lines : List Str
  row_count : Nat
deriving DecidableEq, Repr

/-- `TextWrapResult::empty`. -/
def TextWrapResult.empty : TextWrapResult := ⟨[], 0⟩

/-- `TextWrapResult::single`. -/
def TextWrapResult.single (line : Str) : TextWrapResult := ⟨[line], 1⟩

/-- Loop body of `wrap_detail`: state is `(result, current_line)`. -/
def wrapDetailStep (max_len : Nat) (st : List Str × Str) (detail : Str) :
    List Str × Str :=
  let separator : Str := if st.2.isEmpty then [] else ['、']
  let newLineLength := st.2.length + separator.length + detail.length
  if newLineLength ≤ max_len then
    (st.1, st.2 ++ separator ++ detail)
  else
    let result := if st.2.isEmpty then st.1 else st.1 ++ [st.2]
    let newLine := if detail.length > max_len then detail.take max_len else detail
    (result, newLine)

/-- `wrap_detail` of `text_utils.rs`: greedily join detail fragments with a
full-width comma, flush on overflow, truncate a single over-long fragment to
`max_len` codepoints, and finally drop blank lines. -/
def wrap_detail (details : List Str) (max_len : Nat) : TextWrapResult :=
  if details.isEmpty then TextWrapResult.empty
  else
    let st := details.foldl (wrapDetailStep max_len) ([], [])
    let result := if st.2.isEmpty then st.1 else st.1 ++ [st.2]
    let filtered := result.filter (fun line => !(isBlank line))
    ⟨filtered, filtered.length⟩

/-- Bool test that `pat` is a prefix of `s` (chars compared for equality). -/
def strHasPrefix : Str → Str → Bool
  | [], _ => true
  | _ :: _, [] => false
  | p :: ps, c :: cs => p == c && strHasPrefix ps cs

/-- Rust `str::replace` (leftmost, non-overlapping) for a non-empty pattern.
The fuel argument is the length of the remaining input; each replacement or
skip consumes at least one input character for the non-empty patterns used in
`wrap_kukan`, so `replaceAll` below (fuel = input length) never exhausts it. -/
def replaceAllFuel (pat rep : Str) : Nat → Str → Str
  | _, [] => []
  | 0, s => s
  | fuel + 1, c :: rest =>
    if strHasPrefix pat (c :: rest) then
      rep ++ replaceAllFuel pat rep fuel (List.drop (pat.length - 1) rest)
    else
      c :: replaceAllFuel pat rep fuel rest

/-- Rust `s.replace(pat, rep)` for the non-empty literal patterns used here. -/
def replaceAll (pat rep s : Str) : Str := replaceAllFuel pat rep s.length s

/-- Split of the preprocessed route string by the delimiter regex
`[　｜]| \||\|` (a full-width space or pipe, a plain space followed by an
ASCII pipe, or an ASCII pipe), with the regex crate's leftmost-first
alternation order.  `acc` holds the current segment, reversed. -/
def kukanSplitAux : Str → Str → List Str
  | acc, [] => [acc.reverse]
  | acc, ' ' :: '|' :: rest => acc.reverse :: kukanSplitAux [] rest
  | acc, c :: rest =>
    if c = '　' ∨ c = '｜' ∨ c = '|' then acc.reverse :: kukanSplitAux [] rest
    else kukanSplitAux (c :: acc) rest

/-- The sentinel line emitted for an over-long route segment. -/
def exceedStr : Str := "exceed*".data

/-- State of the `wrap_kukan` packing loop. -/
structure KukanState where
  result : List Str
  current_line : Str
  current_count : Nat
deriving DecidableEq, Repr

/-- Loop body of `wrap_kukan` over one segment. -/
def wrapKukanStep (max_len : Nat) (st : KukanState) (part : Str) : KukanState :=
  let partLen := part.length
  if st.current_count ≠ 0 ∧ st.current_count + partLen = max_len then
    ⟨st.result ++ [st.current_line ++ part], [], 0⟩
  else if partLen = max_len ∧ st.current_line.isEmpty then
    ⟨st.result ++ [part], st.current_line, 0⟩
  else if partLen > max_len then
    ⟨st.result ++ [exceedStr], st.current_line, 0⟩
  else if st.current_count + partLen + 1 > max_len then
    let res := if st.current_line.isEmpty then st.result else st.result ++ [st.current_line]
    ⟨res, part ++ ['　'], partLen + 1⟩
  else
    ⟨st.result, st.current_line ++ part ++ ['　'], st.current_count + partLen + 1⟩

/-- Trim leading and trailing full-width spaces
(`trim_start_matches('　')` then `trim_end_matches('　')`). -/
def trimFW (s : Str) : Str :=
  ((s.dropWhile (fun c => c = '　')).reverse.dropWhile (fun c => c = '　')).reverse

/-- Preprocessing of `wrap_kukan`: two literal substitutions, then every plain
space becomes a full-width space. -/
def kukanPreprocess (kukan : Str) : Str :=
  let k1 := replaceAll "_九州外空車適用".data "　九州外空車適用".data kukan
  let k2 := replaceAll "適用*   追加".data "適用*　追加".data k1
  k2.map (fun c => if c = ' ' then '　' else c)

/-- The delimiter-separated segments the `wrap_kukan` loop processes. -/
def kukanParts (kukan : Str) : List Str := kukanSplitAux [] (kukanPreprocess kukan)

/-- Post-processing of each produced line: plain spaces to full-width spaces,
then trim full-width spaces at both ends. -/
def kukanPostLine (line : Str) : Str :=
  trimFW (line.map (fun c => if c = ' ' then '　' else c))

/-- `wrap_kukan` of `text_utils.rs`: preprocess, split on delimiters, pack
segments into lines of at most `max_len` codepoints with full-width-space
separators, emit `"exceed*"` for an over-long segment, then post-process. -/
def wrap_kukan (kukan : Str) (max_len : Nat) : TextWrapResult :=
  if kukan.isEmpty then TextWrapResult.single []
  else
    let parts := kukanParts kukan
    let st := parts.foldl (wrapKukanStep max_len) ⟨[], [], 0⟩
    let result := if st.current_count ≠ 0 then st.result ++ [st.current_line] else st.result
    let result := result.map kukanPostLine
    ⟨result, result.length⟩

/-- `i32::MIN`. -/
def i32Min : Int := -(2 ^ 31)

/-- Rust `i32::abs` with release-mode (two's-complement wrapping) overflow
semantics: the absolute value of `i32::MIN` wraps back to `i32::MIN`. -/
def i32Abs (p : Int) : Int := if p = i32Min then p else (p.natAbs : Int)

/-- `format_price` of `models.rs`: decimal digits of the absolute value,
grouped in threes from the right with commas, with a leading minus sign for
negative values. -/
def format_price (price : Int) : Str :=
  let s := (toString (i32Abs price)).data
  let chars := s.reverse
  let grouped := chars.enum.foldl
    (fun (acc : Str) (ic : Nat × Char) =>
      (if ic.1 > 0 ∧ ic.1 % 3 = 0 then acc ++ [','] else acc) ++ [ic.2]) []
  let signed := if price < 0 then grouped ++ ['-'] else grouped
  signed.reverse

/-- Drop exactly `n` UTF-8 bytes from the front; `none` when `n` is not a
character boundary (a Rust byte-slice there panics). -/
def byteDrop : Str → Nat → Option Str
  | s, 0 => some s
  | [], _ + 1 => none
  | c :: rest, n + 1 =>
    if utf8Size c ≤ n + 1 then byteDrop rest (n + 1 - utf8Size c) else none

/-- Take exactly `n` UTF-8 bytes from the front; `none` when `n` is not a
character boundary or past the end. -/
def byteTake : Str → Nat → Option Str
  | _, 0 => some []
  | [], _ + 1 => none
  | c :: rest, n + 1 =>
    if utf8Size c ≤ n + 1 then (byteTake rest (n + 1 - utf8Size c)).map (c :: ·) else none

/-- Rust `&s[a..b]` on a `str`: panics (`none`) off character boundaries. -/
def byteSlice (s : Str) (a b : Nat) : Option Str :=
  (byteDrop s a).bind (fun t => byteTake t (b - a))

/-- Rust `arr[i] = v` on a `Vec`: panics (`none`) when `i` is out of range. -/
def setIdx (arr : List Str) (i : Nat) (v : Str) : Option (List Str) :=
  if i < arr.length then some (arr.set i v) else none

/-- One scalar column of `align_rows`: `max_rows` blanks, the formatted value
(if present) written at index 0. -/
def scalarArr (max_rows : Nat) (v : Option Str) : Option (List Str) :=
  match v with
  | none => some (List.replicate max_rows [])
  | some s => setIdx (List.replicate max_rows []) 0 s

/-- The date column of `align_rows`.  The source checks the byte length and
the characters at positions 4 and 7, then byte-slices `date[5..7]` and
`date[8..10]` to build `MM/DD`; a non-matching date is stored verbatim. -/
def dateArrOf (max_rows : Nat) (date : Option Str) : Option (List Str) :=
  match date with
  | none => some (List.replicate max_rows [])
  | some d =>
    if 10 ≤ utf8Len d ∧ d[4]? = some '-' ∧ d[7]? = some '-' then
      (byteSlice d 5 7).bind (fun month =>
      (byteSlice d 8 10).bind (fun day =>
      setIdx (List.replicate max_rows []) 0 (month ++ '/' :: day)))
    else setIdx (List.replicate max_rows []) 0 d

/-- `align_rows` of `text_utils.rs`: four columns of `max_rows` blank strings
with the scalar fields formatted into index 0.  `none` models a panic (date
byte-slice off a character boundary, or a present field with `max_rows = 0`).
The quantity formatter `fmtV` abstracts `format!("{:.1}", v)`. -/
def align_rows {V : Type} (fmtV : V → Str) (date dest : Option Str)
    (price : Option Int) (vol : Option V) (max_rows : Nat) :
    Option (List Str × List Str × List Str × List Str) :=
  (dateArrOf max_rows date).bind (fun date_arr =>
  (scalarArr max_rows dest).bind (fun dest_arr =>
  (scalarArr max_rows (price.map format_price)).bind (fun price_arr =>
  (scalarArr max_rows (vol.map fmtV)).map (fun vol_arr =>
  (date_arr, dest_arr, price_arr, vol_arr)))))

/-- `extend_to_max_rows` of `text_utils.rs`: drop blank lines, then pad with
blanks to `max_rows` (kept as-is when already at least `max_rows` long). -/
def extend_to_max_rows (lines : List Str) (max_rows : Nat) : List Str :=
  let filtered := lines.filter (fun line => !(isBlank line))
  if filtered.length < max_rows then
    (List.range max_rows).map (fun i => filtered.getD i [])
  else filtered

/-- The expense record (`Ryohi` of `models.rs`), restricted to the six fields
the formatting path reads; the remaining serialized fields of the Rust struct
are never touched by `prepare_ryohi_for_print`.  `V` abstracts `f64`. -/
structure Ryohi (V : Type) where
  date : Option Str
  dest : Option Str
  detail : List Str
  kukan : Option Str
  price : Option Int
  vol : Option V

/-- `RyohiPrintData` of `text_utils.rs`: six parallel row arrays plus the
row count. -/
structure RyohiPrintData where
  date_lines : List Str
  dest_lines : List Str
  detail_lines : List Str
  kukan_lines : List Str
  price_lines : List Str
  vol_lines : List Str
  max_rows : Nat
deriving DecidableEq, Repr

/-- `RyohiPrintData::has_content_in_row`: false when the row is past every
column, otherwise true iff some column has a non-blank entry there. -/
def RyohiPrintData.has_content_in_row (pd : RyohiPrintData) (row : Nat) : Bool :=
  if pd.date_lines.length ≤ row ∧ pd.dest_lines.length ≤ row ∧
      pd.detail_lines.length ≤ row ∧ pd.kukan_lines.length ≤ row ∧
      pd.price_lines.length ≤ row ∧ pd.vol_lines.length ≤ row then
    false
  else if row < pd.date_lines.length ∧ ¬isBlank (pd.date_lines.getD row []) then true
  else if row < pd.dest_lines.length ∧ ¬isBlank (pd.dest_lines.getD row []) then true
  else if row < pd.detail_lines.length ∧ ¬isBlank (pd.detail_lines.getD row []) then true
  else if row < pd.kukan_lines.length ∧ ¬isBlank (pd.kukan_lines.getD row []) then true
  else if row < pd.price_lines.length ∧ ¬isBlank (pd.price_lines.getD row []) then true
  else if row < pd.vol_lines.length ∧ ¬isBlank (pd.vol_lines.getD row []) then true
  else false

/-- `RyohiPrintData::get_date`: empty string when out of range. -/
def RyohiPrintData.get_date (pd : RyohiPrintData) (row : Nat) : Str :=
  pd.date_lines.getD row []

/-- `RyohiPrintData::get_dest`. -/
def RyohiPrintData.get_dest (pd : RyohiPrintData) (row : Nat) : Str :=
  pd.dest_lines.getD row []

/-- `RyohiPrintData::get_detail`. -/
def RyohiPrintData.get_detail (pd : RyohiPrintData) (row : Nat) : Str :=
  pd.detail_lines.getD row []

/-- `RyohiPrintData::get_kukan`. -/
def RyohiPrintData.get_kukan (pd : RyohiPrintData) (row : Nat) : Str :=
  pd.kukan_lines.getD row []

/-- `RyohiPrintData::get_price`. -/
def RyohiPrintData.get_price (pd : RyohiPrintData) (row : Nat) : Str :=
  pd.price_lines.getD row []

/-- `RyohiPrintData::get_vol`. -/
def RyohiPrintData.get_vol (pd : RyohiPrintData) (row : Nat) : Str :=
  pd.vol_lines.getD row []

/-- The detail wrap step of `prepare_ryohi_for_print`: wrap a non-empty detail
list, substitute a single blank line for an empty one. -/
def detailWrapOf {V : Type} (r : Ryohi V) (max_detail_len : Nat) : TextWrapResult :=
  if !r.detail.isEmpty then wrap_detail r.detail max_detail_len
  else TextWrapResult.single []

/-- The route wrap step of `prepare_ryohi_for_print`: wrap a present route
string, substitute a single blank line for an absent one. -/
def kukanWrapOf {V : Type} (r : Ryohi V) (max_kukan_len : Nat) : TextWrapResult :=
  match r.kukan with
  | some k => wrap_kukan k max_kukan_len
  | none => TextWrapResult.single []

/-- `prepare_ryohi_for_print` of `text_utils.rs`: wrap both free-text fields,
take `max(detail rows, route rows, 1)` as the record's row count, align the
scalar columns, and pad the two wrapped columns to the common height.
`none` models the panic propagated from `align_rows`. -/
def prepare_ryohi_for_print {V : Type} (fmtV : V → Str) (r : Ryohi V)
    (max_detail_len max_kukan_len : Nat) : Option RyohiPrintData :=
  let detail_result := detailWrapOf r max_detail_len
  let kukan_result := kukanWrapOf r max_kukan_len
  let max_rows := max (max detail_result.row_count kukan_result.row_count) 1
  (align_rows fmtV r.date r.dest r.price r.vol max_rows).map
    (fun quad =>
      { date_lines := quad.1
        dest_lines := quad.2.1
        detail_lines := extend_to_max_rows detail_result.lines max_rows
        kukan_lines := extend_to_max_rows kukan_result.lines max_rows
        price_lines := quad.2.2.1
        vol_lines := quad.2.2.2
        max_rows := max_rows })

/-- `MAX_DETAIL_LENGTH` of `layout.rs`. -/
def MAX_DETAIL_LENGTH : Nat := 10

/-- `MAX_KUKAN_LENGTH` of `layout.rs`. -/
def MAX_KUKAN_LENGTH : Nat := 22

/-- One positioned text-draw instruction of `add_ryohi_items` (the column
index into `col_widths`, the physical row and sub-row of the drawn slot, and
the drawn text). -/
structure DrawOp where
  col : Nat
  physical_row : Nat
  sub_row : Nat
  text : Str
deriving DecidableEq, Repr

/-- The draw instructions `add_ryohi_items` emits for one content-bearing
logical row: one per non-empty column value, in source order (date,
destination, detail, route, amount, quantity; the transport, fare and special
charge columns are always left blank). -/
def rowOps (pd : RyohiPrintData) (logicalRow row : Nat) : List DrawOp :=
  ([(0, pd.get_date row), (1, pd.get_dest row), (2, pd.get_detail row),
    (3, pd.get_kukan row), (7, pd.get_price row), (8, pd.get_vol row)].filter
      (fun p => !p.2.isEmpty)).map
    (fun p => ⟨p.1, logicalRow / 2, logicalRow % 2, p.2⟩)

/-- Inner row loop of `add_ryohi_items` over the rows of one record:
`drawn` is `drawn_rows`, the logical row of an emission is
`current_row + drawn`; rows without content are skipped free of charge. -/
def recordRowsAux (pd : RyohiPrintData) (current_row : Nat) :
    List Nat → Nat → List DrawOp × Nat
  | [], drawn => ([], drawn)
  | row :: rest, drawn =>
    if pd.has_content_in_row row then
      let ops := rowOps pd (current_row + drawn) row
      let rec' := recordRowsAux pd current_row rest (drawn + 1)
      (ops ++ rec'.1, rec'.2)
    else recordRowsAux pd current_row rest drawn

/-- Per-record body of `add_ryohi_items`: scan rows `0 ..< actual_rows` where
`actual_rows = min(max_rows, 14 - current_row)`; returns the emitted
instructions and `drawn_rows`. -/
def recordRowsOps (pd : RyohiPrintData) (current_row : Nat) : List DrawOp × Nat :=
  recordRowsAux pd current_row (List.range (min pd.max_rows (14 - current_row))) 0

/-- Record loop of `add_ryohi_items`: `current_row` is the page budget already
consumed; the loop breaks once it reaches 14, and `none` propagates a panic
from `prepare_ryohi_for_print`. -/
def addRyohiAux {V : Type} (fmtV : V → Str) :
    List (Ryohi V) → List DrawOp → Nat → Option (List DrawOp × Nat)
  | [], ops, current_row => some (ops, current_row)
  | r :: rest, ops, current_row =>
    if 14 ≤ current_row then some (ops, current_row)
    else
      match prepare_ryohi_for_print fmtV r MAX_DETAIL_LENGTH MAX_KUKAN_LENGTH with
      | none => none
      | some pd =>
        let rec' := recordRowsOps pd current_row
        addRyohiAux fmtV rest (ops ++ rec'.1) (current_row + rec'.2)

/-- `add_ryohi_items` of `generator.rs`, restricted to its data content: the
ordered draw instructions for the rows of the given records and the final
`current_row` (the number of logical rows drawn). -/
def add_ryohi_items {V : Type} (fmtV : V → Str) (ryohi_list : List (Ryohi V)) :
    Option (List DrawOp × Nat) :=
  addRyohiAux fmtV ryohi_list [] 0

/-- The separator-tail of a comma join: each fragment preceded by `'、'`. -/
def joinTail (ds : List Str) : Str := (ds.map (fun d => '、' :: d)).flatten

/-- The spec's "fragments joined by the full-width comma", used to state the
claims about `wrap_detail` on lists whose join fits on one line. -/
def joinComma (ds : List Str) : Str :=
  match ds with
  | [] => []
  | d :: rest => d ++ joinTail rest

/-- Invariant of the `wrap_kukan` packing loop: something has been flushed or
the pending buffer is charged (`current_count ≠ 0`). -/
def kukanInv (st : KukanState) : Prop := st.result ≠ [] ∨ st.current_count ≠ 0

/-- A record mirroring the repository's own `prepare_ryohi_for_print` unit
test, used as a concrete witness input. -/
def rC1 : Ryohi Str :=
  ⟨some "2024-01-15".data, some "東京".data, ["交通費".data, "宿泊費".data],
   some "大阪　東京".data, some 10000, some "1.0".data⟩

/-- The print data produced for `rC1`. -/
def pdC1 : RyohiPrintData :=
  (prepare_ryohi_for_print (V := Str) id rC1 10 22).getD ⟨[], [], [], [], [], [], 0⟩

/-- A record whose date field makes `align_rows` byte-slice off a character
boundary, used as a concrete counterexample input. -/
def rBadDate : Ryohi Str :=
  ⟨some "ああああ-ab-cd".data, none, ["交通費".data], none, none, none⟩

/-- A simple one-record list for the page-allocator witness. -/
def rC3 : Ryohi Str := ⟨none, some "東京".data, ["交通費".data], none, some 1000, none⟩

/-- The allocator output for `[rC3]`. -/
def outC3 : List DrawOp × Nat := (add_ryohi_items (V := Str) id [rC3]).getD ([], 0)

/-- Concrete print data with two-row columns, witness input for the
out-of-range accessor claim. -/
def pdC9 : RyohiPrintData :=
  ⟨[['0', '1', '/', '1', '5'], []], ["東京".data, []], ["交通費".data, "宿泊費".data],
   ["大阪".data, []], ["1,000".data, []], ["1.0".data, []], 2⟩

/-- C2: the claim that `align_rows` returns normally for every input,
including non-ASCII date strings, is contradicted by the code.  For the date
"ああああ-ab-cd" the source's shape guard (byte length at least 10, dashes at
character positions 4 and 7) passes, but the byte slice `date[5..7]` falls
inside a multi-byte character, so the Rust code panics (modelled `none`)
instead of handling the malformed date. -/
theorem c2_align_rows_panics_on_boundary :
    align_rows (V := Str) id (some "ああああ-ab-cd".data) none none none 1 = none ∧
    (10 ≤ utf8Len "ああああ-ab-cd".data ∧
      "ああああ-ab-cd".data[4]? = some '-' ∧ "ああああ-ab-cd".data[7]? = some '-') ∧
    byteSlice "ああああ-ab-cd".data 5 7 = none := by
  decide

/-- C8: `prepare_ryohi_for_print` is a pure function of its arguments — the
source touches no global mutable state — so two runs on the same record and
the same maximum lengths give identical results (identical panics included). -/
theorem c8_prepare_deterministic (V : Type) (fmtV : V → Str) (r : Ryohi V)
    (max_detail_len max_kukan_len : Nat) :
    prepare_ryohi_for_print fmtV r max_detail_len max_kukan_len =
      prepare_ryohi_for_print fmtV r max_detail_len max_kukan_len := rfl

/-- C9: row queries and accessors of `RyohiPrintData` never fail: when a row
index is at or past the lengths of all six line sequences,
`has_content_in_row` is false, and each per-column accessor returns the empty
string whenever the index is out of range for its own column. -/
theorem c9_out_of_range_safe (pd : RyohiPrintData) (row : Nat) :
    ((pd.date_lines.length ≤ row ∧ pd.dest_lines.length ≤ row ∧
        pd.detail_lines.length ≤ row ∧ pd.kukan_lines.length ≤ row ∧
        pd.price_lines.length ≤ row ∧ pd.vol_lines.length ≤ row) →
      pd.has_content_in_row row = false) ∧
    (pd.date_lines.length ≤ row → pd.get_date row = []) ∧
    (pd.dest_lines.length ≤ row → pd.get_dest row = []) ∧
    (pd.detail_lines.length ≤ row → pd.get_detail row = []) ∧
    (pd.kukan_lines.length ≤ row → pd.get_kukan row = []) ∧
    (pd.price_lines.length ≤ row → pd.get_price row = []) ∧
    (pd.vol_lines.length ≤ row → pd.get_vol row = []) := by
  refine ⟨fun h => ?_, fun h => ?_, fun h => ?_, fun h => ?_, fun h => ?_,
    fun h => ?_, fun h => ?_⟩
  · unfold RyohiPrintData.has_content_in_row
    rw [if_pos h]
  · exact List.getD_eq_default _ _ h
  · exact List.getD_eq_default _ _ h
  · exact List.getD_eq_default _ _ h
  · exact List.getD_eq_default _ _ h
  · exact List.getD_eq_default _ _ h
  · exact List.getD_eq_default _ _ h

/-- C9 witness: the out-of-range facts instantiated at a concrete two-row
print data value and row index 10. -/
theorem c9_out_of_range_safe_witness :
    pdC9.has_content_in_row 10 = false ∧ pdC9.get_date 10 = [] ∧
    pdC9.get_dest 10 = [] ∧ pdC9.get_detail 10 = [] ∧ pdC9.get_kukan 10 = [] ∧
    pdC9.get_price 10 = [] ∧ pdC9.get_vol 10 = [] := by
  have h := c9_out_of_range_safe pdC9 10
  exact ⟨h.1 (by decide), h.2.1 (by decide), h.2.2.1 (by decide),
    h.2.2.2.1 (by decide), h.2.2.2.2.1 (by decide), h.2.2.2.2.2.1 (by decide),
    h.2.2.2.2.2.2 (by decide)⟩

/-- C4 counterexample: for the single 11-codepoint fragment of ten spaces
followed by an X and `max_len = 10`, the truncation to the first 10
codepoints is all-whitespace, so the final blank-line filter drops it and
`wrap_detail` returns no line at all — not the truncated fragment the claim
promises. -/
theorem c4_truncation_dropped_counterexample :
    ("          X".data).length > 10 ∧
    (wrap_detail ["          X".data] 10).lines = [] ∧
    ("          X".data).take 10 ≠ ([] : Str) := by
  decide

/-- C5 counterexample: for the non-empty fragment list `["", "交通費"]` the
join with a full-width comma is `"、交通費"` (4 codepoints, within
`max_len = 10`), but `wrap_detail` skips the separator after the empty leading
fragment and returns the single line `"交通費"`, not the joined string. -/
theorem c5_join_mismatch_counterexample :
    (joinComma [[], "交通費".data]).length ≤ 10 ∧
    (wrap_detail [[], "交通費".data] 10).lines = ["交通費".data] ∧
    "交通費".data ≠ joinComma [[], "交通費".data] := by
  decide

/-- Splitting never produces an empty list of segments: even an empty input
yields the single empty segment. -/
theorem kukanSplitAux_ne_nil (acc rem : Str) : kukanSplitAux acc rem ≠ [] := by
  induction acc, rem using kukanSplitAux.induct with
  | case1 acc => simp [kukanSplitAux]
  | case2 acc rest ih => simp [kukanSplitAux]
  | case3 acc c rest hne hd ih => simp [kukanSplitAux, hd]
  | case4 acc c rest hne hd ih => simpa [kukanSplitAux, hd] using ih

/-- Every branch of the `wrap_kukan` loop body either flushes a line or
leaves a charged buffer. -/
theorem wrapKukanStep_inv (max_len : Nat) (st : KukanState) (part : Str) :
    kukanInv (wrapKukanStep max_len st part) := by
  simp only [wrapKukanStep, kukanInv]
  split_ifs <;> simp

/-- The packing-loop invariant holds after any non-empty run of steps. -/
theorem foldl_wrapKukanStep_inv (max_len : Nat) (ps : List Str) (st : KukanState)
    (h : kukanInv st) : kukanInv (ps.foldl (wrapKukanStep max_len) st) := by
  induction ps generalizing st with
  | nil => exact h
  | cons p rest ih => exact ih _ (wrapKukanStep_inv max_len st p)

/-- C7: for every positive `max_len`, `wrap_kukan` on the empty string
returns exactly one line, the empty string, with `row_count` 1; and for every
non-empty input the returned `row_count` is at least 1. -/
theorem c7_wrap_kukan_row_count (s : Str) (N : Nat) (_hN : 0 < N) :
    ((wrap_kukan [] N).lines = [[]] ∧ (wrap_kukan [] N).row_count = 1) ∧
    (s ≠ [] → 1 ≤ (wrap_kukan s N).row_count) := by
  refine ⟨⟨rfl, rfl⟩, fun hs => ?_⟩
  have hne : s.isEmpty = false := by simpa [List.isEmpty_iff] using hs
  obtain ⟨p, rest, hk⟩ : ∃ p rest, kukanParts s = p :: rest := by
    cases hk : kukanParts s with
    | nil => exact absurd hk (kukanSplitAux_ne_nil _ _)
    | cons p rest => exact ⟨p, rest, rfl⟩
  have hinv : kukanInv ((kukanParts s).foldl (wrapKukanStep N) ⟨[], [], 0⟩) := by
    rw [hk, List.foldl_cons]
    exact foldl_wrapKukanStep_inv N rest _ (wrapKukanStep_inv N _ p)
  unfold wrap_kukan
  rw [if_neg (by simp [hne])]
  set st := (kukanParts s).foldl (wrapKukanStep N) ⟨[], [], 0⟩ with hst
  show 1 ≤ ((if st.current_count ≠ 0 then st.result ++ [st.current_line]
      else st.result).map kukanPostLine).length
  rw [List.length_map]
  by_cases hc : st.current_count ≠ 0
  · rw [if_pos hc, List.length_append]
    simp
  · rw [if_neg hc]
    rcases hinv with hr | hcc
    · exact List.length_pos.mpr hr
    · exact absurd hcc hc

/-- C7 witness: the empty-string and non-empty-string facts instantiated at
`max_len = 22` and the input `"東京"`. -/
theorem c7_wrap_kukan_row_count_witness :
    (0 : Nat) < 22 ∧ "東京".data ≠ ([] : Str) ∧
    1 ≤ (wrap_kukan "東京".data 22).row_count := by
  refine ⟨by decide, by decide, ?_⟩
  exact (c7_wrap_kukan_row_count "東京".data 22 (by decide)).2 (by decide)

/-- Each loop step emits one `"exceed*"` line per over-long segment (other
branches can only add further lines). -/
theorem wrapKukanStep_exceed_count (max_len : Nat) (st : KukanState) (part : Str) :
    st.result.count exceedStr + (if max_len < part.length then 1 else 0) ≤
      ((wrapKukanStep max_len st part).result).count exceedStr := by
  simp only [wrapKukanStep]
  split_ifs with h1 h2 h3 h4 h5 <;>
    simp [List.count_append, List.count_singleton] <;> omega

/-- Across a run of the loop, the flushed lines contain at least one
`"exceed*"` per over-long segment processed. -/
theorem foldl_exceed_count (max_len : Nat) (ps : List Str) (st : KukanState) :
    st.result.count exceedStr + ps.countP (fun p => decide (max_len < p.length)) ≤
      ((ps.foldl (wrapKukanStep max_len) st).result).count exceedStr := by
  induction ps generalizing st with
  | nil => simp
  | cons p rest ih =>
    rw [List.foldl_cons, List.countP_cons]
    have h1 := wrapKukanStep_exceed_count max_len st p
    have h2 := ih (wrapKukanStep max_len st p)
    simp only [decide_eq_true_eq] at h1 h2 ⊢
    omega

/-- Mapping a function that fixes `a` never decreases the number of
occurrences of `a`. -/
theorem count_le_count_map (f : Str → Str) (l : List Str) (a : Str) (hf : f a = a) :
    l.count a ≤ (l.map f).count a := by
  induction l with
  | nil => simp
  | cons b rest ih =>
    simp only [List.map_cons, List.count_cons]
    have hite : (if (b == a) = true then 1 else 0) ≤
        (if (f b == a) = true then 1 else 0) := by
      by_cases hb : b = a
      · simp [hb, hf]
      · simp [hb]
    omega

/-- C6: for every route string and positive `max_len`, every
delimiter-separated segment longer than `max_len` codepoints puts a literal
`"exceed*"` line into `wrap_kukan`'s (always normally returned) result: the
output contains at least as many `"exceed*"` lines as there are over-long
segments. -/
theorem c6_exceed_sentinel (kukan : Str) (max_len : Nat) (_h : 0 < max_len) :
    (kukanParts kukan).countP (fun p => decide (max_len < p.length)) ≤
      (wrap_kukan kukan max_len).lines.count exceedStr := by
  by_cases hk : kukan.isEmpty
  · have hnil : kukan = [] := List.isEmpty_iff.mp hk
    subst hnil
    have h0 : kukanParts ([] : Str) = [[]] := rfl
    rw [h0]
    simp [List.countP_cons]
  · unfold wrap_kukan
    rw [if_neg (by simp [hk])]
    have h1 := foldl_exceed_count max_len (kukanParts kukan) ⟨[], [], 0⟩
    set st := (kukanParts kukan).foldl (wrapKukanStep max_len) ⟨[], [], 0⟩ with hst
    show _ ≤ ((if st.current_count ≠ 0 then st.result ++ [st.current_line]
        else st.result).map kukanPostLine).count exceedStr
    have h2 : st.result.count exceedStr ≤
        (if st.current_count ≠ 0 then st.result ++ [st.current_line]
          else st.result).count exceedStr := by
      split_ifs
      · rw [List.count_append]
        exact Nat.le_add_right _ _
      · exact Nat.le_refl _
    have h3 := count_le_count_map kukanPostLine
      (if st.current_count ≠ 0 then st.result ++ [st.current_line] else st.result)
      exceedStr (by decide)
    simp only [List.count_nil] at h1
    omega

/-- C6 witness: a single ten-codepoint segment with `max_len = 3` produces an
`"exceed*"` line. -/
theorem c6_exceed_sentinel_witness :
    (0 : Nat) < 3 ∧
    (kukanParts "あいうえおかきくけこ".data).countP (fun p => decide (3 < p.length)) ≤
      (wrap_kukan "あいうえおかきくけこ".data 3).lines.count exceedStr :=
  ⟨by decide, c6_exceed_sentinel "あいうえおかきくけこ".data 3 (by decide)⟩

/-- After preprocessing, the route string contains no plain space: every
plain space has been mapped to a full-width space. -/
theorem kukanPreprocess_no_space (s : Str) : ∀ c ∈ kukanPreprocess s, c ≠ ' ' := by
  intro c hc
  obtain ⟨a, _, rfl⟩ := List.mem_map.mp hc
  by_cases ha : a = ' ' <;> simp [ha]

/-- Segments produced by the delimiter split contain no plain space (the
input has none) and no pipe of either width (they are the split points). -/
theorem kukanSplitAux_chars (acc rem : Str)
    (hrem : ∀ c ∈ rem, c ≠ ' ')
    (hacc : ∀ c ∈ acc, c ≠ ' ' ∧ c ≠ '|' ∧ c ≠ '｜') :
    ∀ part ∈ kukanSplitAux acc rem, ∀ c ∈ part, c ≠ ' ' ∧ c ≠ '|' ∧ c ≠ '｜' := by
  induction acc, rem using kukanSplitAux.induct with
  | case1 acc =>
    intro part hp c hc
    simp only [kukanSplitAux, List.mem_singleton] at hp
    subst hp
    exact hacc c (List.mem_reverse.mp hc)
  | case2 acc rest ih =>
    exact absurd rfl (hrem ' ' (by simp))
  | case3 acc c rest hne hd ih =>
    intro part hp d hd2
    simp only [kukanSplitAux, hd, if_true, List.mem_cons] at hp
    rcases hp with hp | hp
    · subst hp
      exact hacc d (List.mem_reverse.mp hd2)
    · exact ih (fun e he => hrem e (List.mem_cons_of_mem _ he)) (by simp) part hp d hd2
  | case4 acc c rest hne hd ih =>
    intro part hp d hd2
    have hstep : kukanSplitAux acc (c :: rest) = kukanSplitAux (c :: acc) rest := by
      simp [kukanSplitAux, hd]
    rw [hstep] at hp
    have hc' : c ≠ ' ' := hrem c (by simp)
    have hcq : c ≠ ' ' ∧ c ≠ '|' ∧ c ≠ '｜' := by
      refine ⟨hc', ?_, ?_⟩ <;> intro h <;> exact hd (by simp [h])
    refine ih (fun e he => hrem e (List.mem_cons_of_mem _ he)) ?_ part hp d hd2
    intro e he
    rcases List.mem_cons.mp he with he | he
    · subst he; exact hcq
    · exact hacc e he

/-- The loop body only ever assembles lines out of segment characters,
full-width-space separators and the sentinel, so the absence of plain
spaces and pipes is preserved. -/
theorem wrapKukanStep_chars (max_len : Nat) (st : KukanState) (part : Str)
    (hpart : ∀ c ∈ part, c ≠ ' ' ∧ c ≠ '|' ∧ c ≠ '｜')
    (hline : ∀ c ∈ st.current_line, c ≠ ' ' ∧ c ≠ '|' ∧ c ≠ '｜')
    (hres : ∀ line ∈ st.result, ∀ c ∈ line, c ≠ ' ' ∧ c ≠ '|' ∧ c ≠ '｜') :
    (∀ c ∈ (wrapKukanStep max_len st part).current_line,
        c ≠ ' ' ∧ c ≠ '|' ∧ c ≠ '｜') ∧
    (∀ line ∈ (wrapKukanStep max_len st part).result, ∀ c ∈ line,
        c ≠ ' ' ∧ c ≠ '|' ∧ c ≠ '｜') := by
  have hexceed : ∀ c ∈ exceedStr, c ≠ ' ' ∧ c ≠ '|' ∧ c ≠ '｜' := by decide
  have hfw : ('　' : Char) ≠ ' ' ∧ ('　' : Char) ≠ '|' ∧ ('　' : Char) ≠ '｜' := by decide
  simp only [wrapKukanStep]
  split_ifs with h1 h2 h3 h4 h5
  · refine ⟨fun x hx => absurd hx (List.not_mem_nil x), fun l hl x hx => ?_⟩
    rcases List.mem_append.mp hl with h | h
    · exact hres l h x hx
    · rw [List.mem_singleton] at h
      subst h
      rcases List.mem_append.mp hx with h | h
      · exact hline x h
      · exact hpart x h
  · refine ⟨hline, fun l hl x hx => ?_⟩
    rcases List.mem_append.mp hl with h | h
    · exact hres l h x hx
    · rw [List.mem_singleton] at h
      subst h
      exact hpart x hx
  · refine ⟨hline, fun l hl x hx => ?_⟩
    rcases List.mem_append.mp hl with h | h
    · exact hres l h x hx
    · rw [List.mem_singleton] at h
      subst h
      exact hexceed x hx
  · refine ⟨fun x hx => ?_, hres⟩
    rcases List.mem_append.mp hx with h | h
    · exact hpart x h
    · rw [List.mem_singleton] at h
      subst h
      exact hfw
  · refine ⟨fun x hx => ?_, fun l hl x hx => ?_⟩
    · rcases List.mem_append.mp hx with h | h
      · exact hpart x h
      · rw [List.mem_singleton] at h
        subst h
        exact hfw
    · rcases List.mem_append.mp hl with h | h
      · exact hres l h x hx
      · rw [List.mem_singleton] at h
        subst h
        exact hline x hx
  · refine ⟨fun x hx => ?_, hres⟩
    rcases List.mem_append.mp hx with h | h
    · rcases List.mem_append.mp h with h2 | h2
      · exact hline x h2
      · exact hpart x h2
    · rw [List.mem_singleton] at h
      subst h
      exact hfw

/-- The character invariant is preserved across the whole packing loop. -/
theorem foldl_kukan_chars (max_len : Nat) (ps : List Str) (st : KukanState)
    (hps : ∀ p ∈ ps, ∀ c ∈ p, c ≠ ' ' ∧ c ≠ '|' ∧ c ≠ '｜')
    (hline : ∀ c ∈ st.current_line, c ≠ ' ' ∧ c ≠ '|' ∧ c ≠ '｜')
    (hres : ∀ line ∈ st.result, ∀ c ∈ line, c ≠ ' ' ∧ c ≠ '|' ∧ c ≠ '｜') :
    (∀ c ∈ (ps.foldl (wrapKukanStep max_len) st).current_line,
        c ≠ ' ' ∧ c ≠ '|' ∧ c ≠ '｜') ∧
    (∀ line ∈ (ps.foldl (wrapKukanStep max_len) st).result, ∀ c ∈ line,
        c ≠ ' ' ∧ c ≠ '|' ∧ c ≠ '｜') := by
  induction ps generalizing st with
  | nil => exact ⟨hline, hres⟩
  | cons p rest ih =>
    rw [List.foldl_cons]
    have hstep := wrapKukanStep_chars max_len st p (hps p (by simp)) hline hres
    exact ih _ (fun q hq => hps q (List.mem_cons_of_mem _ hq)) hstep.1 hstep.2

/-- C10: for every input string and positive `max_len`, no line returned by
`wrap_kukan` contains a plain space, an ASCII pipe or a full-width pipe:
plain spaces are converted to full-width spaces in preprocessing and all
pipe delimiters are removed by segmentation. -/
theorem c10_no_raw_delimiters (s : Str) (max_len : Nat) (_h : 0 < max_len) :
    ∀ line ∈ (wrap_kukan s max_len).lines, ∀ c ∈ line,
      c ≠ ' ' ∧ c ≠ '|' ∧ c ≠ '｜' := by
  by_cases hk : s.isEmpty
  · have hnil : s = [] := List.isEmpty_iff.mp hk
    subst hnil
    intro line hl c hc
    simp only [wrap_kukan, TextWrapResult.single, List.isEmpty_nil, if_true,
      List.mem_singleton] at hl
    subst hl
    exact absurd hc (List.not_mem_nil c)
  · unfold wrap_kukan
    rw [if_neg (by simp [hk])]
    intro line hl c hc
    set st := (kukanParts s).foldl (wrapKukanStep max_len) ⟨[], [], 0⟩ with hst
    have hparts : ∀ p ∈ kukanParts s, ∀ c ∈ p, c ≠ ' ' ∧ c ≠ '|' ∧ c ≠ '｜' :=
      kukanSplitAux_chars [] (kukanPreprocess s) (kukanPreprocess_no_space s) (by simp)
    have hst2 := foldl_kukan_chars max_len (kukanParts s) ⟨[], [], 0⟩ hparts
      (by simp) (by simp)
    obtain ⟨l0, hl0, rfl⟩ := List.mem_map.mp hl
    have hl0Q : ∀ c ∈ l0, c ≠ ' ' ∧ c ≠ '|' ∧ c ≠ '｜' := by
      by_cases hc0 : st.current_count ≠ 0
      · rw [if_pos hc0] at hl0
        rcases List.mem_append.mp hl0 with h | h
        · exact hst2.2 l0 h
        · rw [List.mem_singleton] at h
          subst h
          exact hst2.1
      · rw [if_neg hc0] at hl0
        exact hst2.2 l0 hl0
    have hmem : c ∈ l0.map (fun c => if c = ' ' then '　' else c) := by
      unfold kukanPostLine trimFW at hc
      rw [List.mem_reverse] at hc
      have hc2 := (List.dropWhile_sublist _).subset hc
      rw [List.mem_reverse] at hc2
      exact (List.dropWhile_sublist _).subset hc2
    obtain ⟨a, ha, rfl⟩ := List.mem_map.mp hmem
    by_cases haa : a = ' '
    · simp only [haa, if_true]
      decide
    · rw [if_neg haa]
      exact hl0Q a ha

/-- C10 witness: the invariant applied to the first character of the line
produced for the route `"東京 大阪|奈良"` at `max_len = 22`. -/
theorem c10_no_raw_delimiters_witness :
    "東京　大阪　奈良".data ∈ (wrap_kukan "東京 大阪|奈良".data 22).lines ∧
    ('東' ≠ ' ' ∧ '東' ≠ '|' ∧ '東' ≠ '｜') :=
  ⟨by decide, c10_no_raw_delimiters "東京 大阪|奈良".data 22 (by decide)
    "東京　大阪　奈良".data (by decide) '東' (by decide)⟩

/-- Each `wrap_detail` loop step keeps the growing line and every flushed
line within `max_len` codepoints. -/
theorem wrapDetailStep_len (max_len : Nat) (st : List Str × Str) (d : Str)
    (h2 : st.2.length ≤ max_len)
    (h1 : ∀ l ∈ st.1, l.length ≤ max_len) :
    (wrapDetailStep max_len st d).2.length ≤ max_len ∧
    ∀ l ∈ (wrapDetailStep max_len st d).1, l.length ≤ max_len := by
  simp only [wrapDetailStep]
  split_ifs <;> constructor <;>
    first
      | (try simp only [List.length_append, List.length_take]
         omega)
      | (intro l hl
         first
           | exact h1 l hl
           | (rcases List.mem_append.mp hl with h | h
              · exact h1 l h
              · rw [List.mem_singleton] at h
                subst h
                exact h2))

/-- The length bound is preserved across the whole `wrap_detail` loop. -/
theorem foldl_wrapDetailStep_len (max_len : Nat) (ds : List Str) (st : List Str × Str)
    (h2 : st.2.length ≤ max_len)
    (h1 : ∀ l ∈ st.1, l.length ≤ max_len) :
    (ds.foldl (wrapDetailStep max_len) st).2.length ≤ max_len ∧
    ∀ l ∈ (ds.foldl (wrapDetailStep max_len) st).1, l.length ≤ max_len := by
  induction ds generalizing st with
  | nil => exact ⟨h2, h1⟩
  | cons d rest ih =>
    rw [List.foldl_cons]
    have hstep := wrapDetailStep_len max_len st d h2 h1
    exact ih _ hstep.1 hstep.2

/-- C4 (amended): every line in the result of `wrap_detail` has codepoint
length at most `max_len`; a single fragment longer than `max_len` is
truncated to exactly its first `max_len` codepoints with the remainder
discarded (never wrapped onto a further line), and that truncated line is the
sole result line unless it is entirely whitespace, in which case the final
blank-line filter drops it and no line is returned. -/
theorem c4_wrap_detail_line_bounds (details : List Str) (d : Str) (max_len : Nat)
    (hpos : 0 < max_len) :
    (∀ line ∈ (wrap_detail details max_len).lines, line.length ≤ max_len) ∧
    (max_len < d.length →
      (wrap_detail [d] max_len).lines =
        if isBlank (d.take max_len) then [] else [d.take max_len]) := by
  constructor
  · intro line hl
    unfold wrap_detail at hl
    split_ifs at hl with hempty
    · exact absurd hl (List.not_mem_nil line)
    · have hfold := foldl_wrapDetailStep_len max_len details ([], [])
        (by simp) (by simp)
      set st := details.foldl (wrapDetailStep max_len) ([], []) with hst
      have hl2 : line ∈ (if st.2.isEmpty then st.1 else st.1 ++ [st.2]) :=
        List.mem_of_mem_filter hl
      split_ifs at hl2
      · exact hfold.2 line hl2
      · rcases List.mem_append.mp hl2 with h | h
        · exact hfold.2 line h
        · rw [List.mem_singleton] at h
          subst h
          exact hfold.1
  · intro hlong
    have hstep : wrapDetailStep max_len ([], ([] : Str)) d = ([], d.take max_len) := by
      simp only [wrapDetailStep, List.isEmpty_nil, if_true]
      rw [if_neg (by simp; omega), if_pos (by omega)]
    have htake_len : (d.take max_len).length = max_len := by
      simp only [List.length_take]
      omega
    have htake_ne : d.take max_len ≠ [] := by
      intro h
      rw [h] at htake_len
      simp at htake_len
      omega
    have htake_emp : (d.take max_len).isEmpty = false := by
      simpa [List.isEmpty_iff] using htake_ne
    unfold wrap_detail
    rw [if_neg (by simp)]
    rw [List.foldl_cons, hstep]
    show ((if (d.take max_len).isEmpty then ([] : List Str)
        else [] ++ [d.take max_len]).filter (fun line => !(isBlank line))) = _
    rw [htake_emp]
    by_cases hb : isBlank (d.take max_len)
    · simp [hb]
    · simp [hb]

/-- C4 witness: the bounds at `["abc"]` with `max_len = 5`, and the
truncation of the 12-codepoint fragment `"abcdefghijkl"` to `"abcde"`. -/
theorem c4_wrap_detail_line_bounds_witness :
    (0 : Nat) < 5 ∧ 5 < "abcdefghijkl".data.length ∧
    (∀ line ∈ (wrap_detail ["abc".data] 5).lines, line.length ≤ 5) ∧
    ((wrap_detail ["abcdefghijkl".data] 5).lines =
      if isBlank ("abcdefghijkl".data.take 5) then []
      else ["abcdefghijkl".data.take 5]) := by
  have h := c4_wrap_detail_line_bounds ["abc".data] "abcdefghijkl".data 5 (by decide)
  exact ⟨by decide, by decide, h.1, h.2 (by decide)⟩

/-- Length of one joined step: separator plus fragment. -/
theorem joinTail_cons_length (d : Str) (rr : List Str) :
    (joinTail (d :: rr)).length = 1 + d.length + (joinTail rr).length := by
  simp [joinTail]
  omega

/-- The first element surviving `dropWhile` fails the predicate. -/
theorem dropWhile_head_false {α : Type} (p : α → Bool) (l : List α) (a : α)
    (rest : List α) (h : l.dropWhile p = a :: rest) : p a = false := by
  induction l with
  | nil => simp [List.dropWhile] at h
  | cons b t ih =>
    rw [List.dropWhile_cons] at h
    split_ifs at h with hb
    · exact ih h
    · rw [List.cons.injEq] at h
      rw [← h.1]
      simpa using hb

/-- Dropping leading empty fragments only removes separators, so the joined
string can only get shorter. -/
theorem joinComma_dropWhile_length_le (ds : List Str) :
    (joinComma (ds.dropWhile (fun d => d.isEmpty))).length ≤ (joinComma ds).length := by
  induction ds with
  | nil => exact Nat.le_refl _
  | cons d rest ih =>
    by_cases hd : d.isEmpty
    · have hdnil : d = [] := List.isEmpty_iff.mp hd
      subst hdnil
      rw [List.dropWhile_cons_of_pos (by simp)]
      refine Nat.le_trans ih ?_
      cases rest with
      | nil => simp [joinComma, joinTail]
      | cons r rr =>
        simp only [joinComma, joinTail, List.map_cons, List.flatten_cons,
          List.length_append, List.length_cons, List.length_nil]
        omega
    · rw [List.dropWhile_cons_of_neg (by simpa using hd)]

/-- When everything fits, the `wrap_detail` loop started on a non-empty
current line simply appends every remaining fragment with its separator and
flushes nothing. -/
theorem wrapDetail_fold_fits (max_len : Nat) (rest : List Str) (cur : Str)
    (hcur : cur ≠ [])
    (hfit : cur.length + (joinTail rest).length ≤ max_len) :
    rest.foldl (wrapDetailStep max_len) ([], cur) = ([], cur ++ joinTail rest) := by
  induction rest generalizing cur with
  | nil => simp [joinTail]
  | cons d rr ih =>
    rw [List.foldl_cons]
    have hsep : cur.isEmpty = false := by simpa [List.isEmpty_iff] using hcur
    have hlen := joinTail_cons_length d rr
    have hfit1 : cur.length + ['、'].length + d.length ≤ max_len := by
      simp only [List.length_singleton]
      omega
    have hstep : wrapDetailStep max_len ([], cur) d = ([], cur ++ ['、'] ++ d) := by
      simp only [wrapDetailStep, hsep, Bool.false_eq_true, if_false]
      rw [if_pos hfit1]
    rw [hstep]
    have hne2 : cur ++ ['、'] ++ d ≠ [] := by simp
    have hfit2 : (cur ++ ['、'] ++ d).length + (joinTail rr).length ≤ max_len := by
      simp only [List.length_append, List.length_singleton]
      omega
    rw [ih _ hne2 hfit2]
    have : cur ++ ['、'] ++ d ++ joinTail rr = cur ++ joinTail (d :: rr) := by
      simp [joinTail, List.append_assoc]
    rw [this]

/-- Leading empty fragments leave the loop state unchanged (the empty current
line absorbs them without a separator). -/
theorem wrapDetail_fold_dropWhile (max_len : Nat) (ds : List Str) :
    ds.foldl (wrapDetailStep max_len) ([], []) =
      (ds.dropWhile (fun d => d.isEmpty)).foldl (wrapDetailStep max_len) ([], []) := by
  induction ds with
  | nil => rfl
  | cons d rest ih =>
    by_cases hd : d.isEmpty
    · have hdnil : d = [] := List.isEmpty_iff.mp hd
      subst hdnil
      rw [List.dropWhile_cons_of_pos (by simp), List.foldl_cons]
      have hstep : wrapDetailStep max_len (([] : List Str), ([] : Str)) [] = ([], []) := by
        simp [wrapDetailStep]
      rw [hstep, ih]
    · rw [List.dropWhile_cons_of_neg (by simpa using hd)]

/-- C5 (amended): for every non-empty fragment list whose full-width-comma
join fits within `max_len` codepoints, `wrap_detail` produces at most one
line: leading empty fragments are skipped without emitting their separators,
and the single line is the comma-join of the remaining fragments unless that
join is empty or all-whitespace, in which case the blank-line filter leaves
no lines (`row_count` 0 instead of 1). -/
theorem c5_joined_fit (ds : List Str) (max_len : Nat) (hne : ds ≠ [])
    (_hpos : 0 < max_len) (hfit : (joinComma ds).length ≤ max_len) :
    (wrap_detail ds max_len).lines =
      (if isBlank (joinComma (ds.dropWhile (fun d => d.isEmpty))) then []
        else [joinComma (ds.dropWhile (fun d => d.isEmpty))]) ∧
    (wrap_detail ds max_len).row_count =
      (if isBlank (joinComma (ds.dropWhile (fun d => d.isEmpty))) then 0 else 1) := by
  have hdsne : ds.isEmpty = false := by simpa [List.isEmpty_iff] using hne
  unfold wrap_detail
  rw [if_neg (by simp [hdsne])]
  rw [wrapDetail_fold_dropWhile]
  cases hdwc : ds.dropWhile (fun d => d.isEmpty) with
  | nil =>
    simp [joinComma, isBlank]
  | cons d0 rest =>
    have hd0 : d0.isEmpty = false := dropWhile_head_false _ ds d0 rest hdwc
    have hd0ne : d0 ≠ [] := by simpa [List.isEmpty_iff] using hd0
    have hjlen : (joinComma (d0 :: rest)).length ≤ max_len := by
      have := joinComma_dropWhile_length_le ds
      rw [hdwc] at this
      omega
    have hjlen2 : d0.length + (joinTail rest).length ≤ max_len := by
      simpa [joinComma, List.length_append] using hjlen
    have hstep0 : wrapDetailStep max_len (([] : List Str), ([] : Str)) d0 = ([], d0) := by
      simp only [wrapDetailStep, List.isEmpty_nil, if_true]
      rw [if_pos (by simpa using Nat.le_trans (Nat.le_add_right _ _) hjlen2)]
      simp
    rw [List.foldl_cons, hstep0, wrapDetail_fold_fits max_len rest d0 hd0ne hjlen2]
    have hj : joinComma (d0 :: rest) = d0 ++ joinTail rest := rfl
    rw [hj]
    have hne3 : d0 ++ joinTail rest ≠ [] := by simp [hd0ne]
    have hemp3 : (d0 ++ joinTail rest).isEmpty = false := by
      simpa [List.isEmpty_iff] using hne3
    show (((if (d0 ++ joinTail rest).isEmpty then ([] : List Str)
        else [] ++ [d0 ++ joinTail rest]).filter (fun line => !(isBlank line))) = _) ∧ _
    rw [hemp3]
    by_cases hb : isBlank (d0 ++ joinTail rest)
    · simp [hb, hd0ne]
    · simp [hb, hd0ne]

/-- C5 witness: the spec scenario `wrap_detail(["A","B","C"], 10)` gives one
line `"A、B、C"` with `row_count` 1. -/
theorem c5_joined_fit_witness :
    ["A".data, "B".data, "C".data] ≠ ([] : List Str) ∧ (0 : Nat) < 10 ∧
    (joinComma ["A".data, "B".data, "C".data]).length ≤ 10 ∧
    (wrap_detail ["A".data, "B".data, "C".data] 10).lines = ["A、B、C".data] ∧
    (wrap_detail ["A".data, "B".data, "C".data] 10).row_count = 1 := by
  have h := c5_joined_fit ["A".data, "B".data, "C".data] 10 (by decide) (by decide)
    (by decide)
  exact ⟨by decide, by decide, by decide, by rw [h.1]; decide, by rw [h.2]; decide⟩

/-- A successful in-range vector write preserves the length. -/
theorem setIdx_length (arr : List Str) (i : Nat) (v : Str) (out : List Str)
    (h : setIdx arr i v = some out) : out.length = arr.length := by
  unfold setIdx at h
  split_ifs at h
  · simp only [Option.some.injEq] at h
    subst h
    exact List.length_set arr i v

/-- A successful scalar column has exactly `max_rows` entries. -/
theorem scalarArr_length (m : Nat) (v : Option Str) (out : List Str)
    (h : scalarArr m v = some out) : out.length = m := by
  cases v with
  | none =>
    simp only [scalarArr, Option.some.injEq] at h
    simp [← h]
  | some s =>
    simp only [scalarArr] at h
    rw [setIdx_length _ _ _ _ h]
    simp

/-- A successful date column has exactly `max_rows` entries. -/
theorem dateArrOf_length (m : Nat) (date : Option Str) (out : List Str)
    (h : dateArrOf m date = some out) : out.length = m := by
  cases date with
  | none =>
    simp only [dateArrOf, Option.some.injEq] at h
    simp [← h]
  | some d =>
    simp only [dateArrOf] at h
    split_ifs at h
    · rw [Option.bind_eq_some] at h
      obtain ⟨month, _, h⟩ := h
      rw [Option.bind_eq_some] at h
      obtain ⟨day, _, h⟩ := h
      rw [setIdx_length _ _ _ _ h]
      simp
    · rw [setIdx_length _ _ _ _ h]
      simp

/-- When `align_rows` returns, all four columns have exactly `max_rows`
entries. -/
theorem align_rows_lengths {V : Type} (fmtV : V → Str) (date dest : Option Str)
    (price : Option Int) (vol : Option V) (m : Nat)
    (quad : List Str × List Str × List Str × List Str)
    (h : align_rows fmtV date dest price vol m = some quad) :
    quad.1.length = m ∧ quad.2.1.length = m ∧
    quad.2.2.1.length = m ∧ quad.2.2.2.length = m := by
  unfold align_rows at h
  rw [Option.bind_eq_some] at h
  obtain ⟨da, hda, h⟩ := h
  rw [Option.bind_eq_some] at h
  obtain ⟨de, hde, h⟩ := h
  rw [Option.bind_eq_some] at h
  obtain ⟨pr, hpr, h⟩ := h
  rw [Option.map_eq_some'] at h
  obtain ⟨vo, hvo, h⟩ := h
  subst h
  exact ⟨dateArrOf_length m date da hda, scalarArr_length m dest de hde,
    scalarArr_length m _ pr hpr, scalarArr_length m _ vo hvo⟩

/-- `wrap_detail` keeps its own invariant `lines.length = row_count`. -/
theorem wrap_detail_lines_length (ds : List Str) (m : Nat) :
    (wrap_detail ds m).lines.length = (wrap_detail ds m).row_count := by
  unfold wrap_detail
  split_ifs <;> rfl

/-- `wrap_kukan` keeps its own invariant `lines.length = row_count`. -/
theorem wrap_kukan_lines_length (s : Str) (m : Nat) :
    (wrap_kukan s m).lines.length = (wrap_kukan s m).row_count := by
  unfold wrap_kukan
  split_ifs <;> rfl

/-- The detail wrap step (with blank-line substitution) keeps the
`lines.length = row_count` invariant. -/
theorem detailWrapOf_lines_length {V : Type} (r : Ryohi V) (m : Nat) :
    (detailWrapOf r m).lines.length = (detailWrapOf r m).row_count := by
  unfold detailWrapOf
  split_ifs
  · exact wrap_detail_lines_length r.detail m
  · rfl

/-- The route wrap step (with blank-line substitution) keeps the
`lines.length = row_count` invariant. -/
theorem kukanWrapOf_lines_length {V : Type} (r : Ryohi V) (m : Nat) :
    (kukanWrapOf r m).lines.length = (kukanWrapOf r m).row_count := by
  unfold kukanWrapOf
  cases r.kukan with
  | some k => exact wrap_kukan_lines_length k m
  | none => rfl

/-- Padding to `max_rows` yields exactly `max_rows` lines whenever the
non-blank lines do not already exceed it. -/
theorem extend_to_max_rows_length (lines : List Str) (m : Nat)
    (h : (lines.filter (fun line => !(isBlank line))).length ≤ m) :
    (extend_to_max_rows lines m).length = m := by
  simp only [extend_to_max_rows]
  split_ifs with hlt
  · simp
  · omega

/-- C1 (amended): whenever `prepare_ryohi_for_print` returns (its date
handling does not hit the byte-slice panic of `align_rows`), the six line
sequences of the produced print data all have length exactly `max_rows`, and
`max_rows` equals `max(detail wrap row count, route wrap row count, 1)`. -/
theorem c1_print_row_shape (V : Type) (fmtV : V → Str) (r : Ryohi V)
    (max_detail_len max_kukan_len : Nat) (pd : RyohiPrintData)
    (_h1 : 0 < max_detail_len) (_h2 : 0 < max_kukan_len)
    (h : prepare_ryohi_for_print fmtV r max_detail_len max_kukan_len = some pd) :
    pd.date_lines.length = pd.max_rows ∧ pd.dest_lines.length = pd.max_rows ∧
    pd.detail_lines.length = pd.max_rows ∧ pd.kukan_lines.length = pd.max_rows ∧
    pd.price_lines.length = pd.max_rows ∧ pd.vol_lines.length = pd.max_rows ∧
    pd.max_rows = max (max (detailWrapOf r max_detail_len).row_count
      (kukanWrapOf r max_kukan_len).row_count) 1 := by
  unfold prepare_ryohi_for_print at h
  rw [Option.map_eq_some'] at h
  obtain ⟨quad, hq, h⟩ := h
  subst h
  have hal := align_rows_lengths fmtV r.date r.dest r.price r.vol _ quad hq
  have hd : ((detailWrapOf r max_detail_len).lines.filter
      (fun line => !(isBlank line))).length ≤
      max (max (detailWrapOf r max_detail_len).row_count
        (kukanWrapOf r max_kukan_len).row_count) 1 := by
    calc ((detailWrapOf r max_detail_len).lines.filter
        (fun line => !(isBlank line))).length
        ≤ (detailWrapOf r max_detail_len).lines.length := List.length_filter_le _ _
      _ = (detailWrapOf r max_detail_len).row_count := detailWrapOf_lines_length r _
      _ ≤ _ := Nat.le_trans (Nat.le_max_left _ _) (Nat.le_max_left _ _)
  have hk : ((kukanWrapOf r max_kukan_len).lines.filter
      (fun line => !(isBlank line))).length ≤
      max (max (detailWrapOf r max_detail_len).row_count
        (kukanWrapOf r max_kukan_len).row_count) 1 := by
    calc ((kukanWrapOf r max_kukan_len).lines.filter
        (fun line => !(isBlank line))).length
        ≤ (kukanWrapOf r max_kukan_len).lines.length := List.length_filter_le _ _
      _ = (kukanWrapOf r max_kukan_len).row_count := kukanWrapOf_lines_length r _
      _ ≤ _ := Nat.le_trans (Nat.le_max_right _ _) (Nat.le_max_left _ _)
  exact ⟨hal.1, hal.2.1, extend_to_max_rows_length _ _ hd,
    extend_to_max_rows_length _ _ hk, hal.2.2.1, hal.2.2.2, rfl⟩

/-- C1 counterexample: for a record whose date is "ああああ-ab-cd" and
positive maximum lengths, `prepare_ryohi_for_print` does not return a
`PrintRow` at all — the propagated `align_rows` byte-slice panic (`none`)
refutes the claim's universal quantification over records. -/
theorem c1_panic_counterexample :
    (0 : Nat) < 10 ∧ (0 : Nat) < 22 ∧
    prepare_ryohi_for_print (V := Str) id rBadDate 10 22 = none := by
  decide

/-- C1 witness: the shape facts at the repository's own unit-test record
with `max_detail_len = 10`, `max_kukan_len = 22`. -/
theorem c1_print_row_shape_witness :
    pdC1.date_lines.length = pdC1.max_rows ∧ pdC1.dest_lines.length = pdC1.max_rows ∧
    pdC1.detail_lines.length = pdC1.max_rows ∧ pdC1.kukan_lines.length = pdC1.max_rows ∧
    pdC1.price_lines.length = pdC1.max_rows ∧ pdC1.vol_lines.length = pdC1.max_rows ∧
    pdC1.max_rows = max (max (detailWrapOf rC1 10).row_count
      (kukanWrapOf rC1 22).row_count) 1 :=
  c1_print_row_shape Str id rC1 10 22 pdC1 (by decide) (by decide) (by rfl)

/-- The row scan advances `drawn_rows` exactly once per content-bearing row
it visits: the final count is the start count plus the number of rows with
content among the scanned rows. -/
theorem recordRowsAux_count (pd : RyohiPrintData) (c : Nat) (rows : List Nat)
    (d : Nat) :
    (recordRowsAux pd c rows d).2 =
      d + rows.countP (fun r => pd.has_content_in_row r) := by
  induction rows generalizing d with
  | nil => simp [recordRowsAux]
  | cons r rest ih =>
    simp only [recordRowsAux, List.countP_cons]
    split_ifs with hr
    · rw [ih (d + 1)]
      omega
    · rw [ih d]
      omega

/-- Every instruction the row scan emits sits at a logical row below the
final budget position, and its text is non-empty. -/
theorem recordRowsAux_ops (pd : RyohiPrintData) (c : Nat) (rows : List Nat)
    (d : Nat) (op : DrawOp) (hop : op ∈ (recordRowsAux pd c rows d).1) :
    2 * op.physical_row + op.sub_row < c + (recordRowsAux pd c rows d).2 ∧
    op.text ≠ [] := by
  induction rows generalizing d with
  | nil => exact absurd hop (by simp [recordRowsAux])
  | cons r rest ih =>
    simp only [recordRowsAux] at hop ⊢
    split_ifs at hop ⊢ with hr
    · rcases List.mem_append.mp hop with hnew | hrec
      · obtain ⟨p, hp, rfl⟩ := List.mem_map.mp hnew
        have hpf := List.mem_filter.mp hp
        constructor
        · show 2 * ((c + d) / 2) + (c + d) % 2 < _
          rw [Nat.div_add_mod (c + d) 2]
          have htot := recordRowsAux_count pd c rest (d + 1)
          omega
        · show p.2 ≠ []
          have := hpf.2
          simp at this
          simpa [List.isEmpty_iff] using this
      · exact ih (d + 1) hrec
    · exact ih d hop

/-- One record never pushes the consumed budget past the 14-row capacity:
its scanned window is capped at `14 - current_row`. -/
theorem recordRowsOps_le (pd : RyohiPrintData) (c : Nat) (hc : c < 14) :
    c + (recordRowsOps pd c).2 ≤ 14 := by
  unfold recordRowsOps
  rw [recordRowsAux_count]
  have h1 : (List.range (min pd.max_rows (14 - c))).countP
      (fun r => pd.has_content_in_row r) ≤ min pd.max_rows (14 - c) := by
    have := List.countP_le_length (fun r => pd.has_content_in_row r)
      (l := List.range (min pd.max_rows (14 - c)))
    simpa using this
  omega

/-- Budget invariant of the record loop: the consumed budget stays within
14 and every emitted instruction lies below it. -/
theorem addRyohiAux_invariant (V : Type) (fmtV : V → Str) (rs : List (Ryohi V))
    (ops : List DrawOp) (cur : Nat) (out : List DrawOp × Nat)
    (hcur : cur ≤ 14)
    (hops : ∀ op ∈ ops, 2 * op.physical_row + op.sub_row < cur ∧ op.text ≠ [])
    (h : addRyohiAux fmtV rs ops cur = some out) :
    out.2 ≤ 14 ∧
    ∀ op ∈ out.1, 2 * op.physical_row + op.sub_row < out.2 ∧ op.text ≠ [] := by
  induction rs generalizing ops cur with
  | nil =>
    simp only [addRyohiAux, Option.some.injEq] at h
    subst h
    exact ⟨hcur, hops⟩
  | cons r rest ih =>
    simp only [addRyohiAux] at h
    split_ifs at h with hge
    · simp only [Option.some.injEq] at h
      subst h
      exact ⟨hcur, hops⟩
    · cases hp : prepare_ryohi_for_print fmtV r MAX_DETAIL_LENGTH MAX_KUKAN_LENGTH with
      | none =>
        rw [hp] at h
        exact absurd h (by simp)
      | some pd =>
        rw [hp] at h
        have hlt : cur < 14 := by omega
        have hcur2 : cur + (recordRowsOps pd cur).2 ≤ 14 := recordRowsOps_le pd cur hlt
        refine ih (ops ++ (recordRowsOps pd cur).1) (cur + (recordRowsOps pd cur).2)
          hcur2 ?_ h
        intro op hop
        rcases List.mem_append.mp hop with hold | hnew
        · have := hops op hold
          exact ⟨by omega, this.2⟩
        · exact recordRowsAux_ops pd cur _ 0 op hnew

/-- C3: for every ordered record sequence on one page, `add_ryohi_items`
(when it completes) draws at most 14 content-bearing logical rows in total
(the final `current_row` counts exactly the rows drawn), every emitted draw
instruction lies at a logical row `2*physical_row + sub_row` strictly below
that total (hence within the 14-row capacity) and carries non-empty text,
and per record the budget counter advances exactly by the number of
content-bearing rows scanned — blank padding rows emit nothing and cost
nothing. -/
theorem c3_page_budget (V : Type) (fmtV : V → Str) (ryohi_list : List (Ryohi V))
    (ops : List DrawOp) (current_row : Nat)
    (h : add_ryohi_items fmtV ryohi_list = some (ops, current_row)) :
    current_row ≤ 14 ∧
    (∀ op ∈ ops, 2 * op.physical_row + op.sub_row < current_row ∧ op.text ≠ []) ∧
    (∀ pd c, (recordRowsOps pd c).2 =
      (List.range (min pd.max_rows (14 - c))).countP
        (fun r => pd.has_content_in_row r)) := by
  have hmain := addRyohiAux_invariant V fmtV ryohi_list [] 0 (ops, current_row)
    (by omega) (by simp) h
  exact ⟨hmain.1, hmain.2, fun pd c => by
    unfold recordRowsOps
    rw [recordRowsAux_count]
    omega⟩

/-- C3 witness: the budget facts at the one-record list `[rC3]`. -/
theorem c3_page_budget_witness :
    outC3.2 ≤ 14 ∧
    (∀ op ∈ outC3.1, 2 * op.physical_row + op.sub_row < outC3.2 ∧ op.text ≠ []) ∧
    (∀ pd c, (recordRowsOps pd c).2 =
      (List.range (min pd.max_rows (14 - c))).countP
        (fun r => pd.has_content_in_row r)) :=
  c3_page_budget Str id [rC3] outC3.1 outC3.2 (by rfl)
